import Mathlib

/-!
Verification development for the pds spreadsheet-ingestion pipeline.

This file shallowly embeds the data-normalization core of the repository:
value parsers (src/utils.py, scripts/upload_excel_to_supabase.py,
scripts/generate_supabase_seed_from_excel.py), the inflation table
normalizer and multi-source combiner (src/utils.py), the Supabase fetch
canonicalizer (src/supabase_client.py), the batching helpers and the
upsert error classifier (scripts).  Python floats are modelled as exact
rationals extended with infinities and NaN; pandas DataFrames are
modelled as lists of typed records or as ordered column lists where the
code manipulates columns by name.
-/

namespace PDS

/-- Model of a Python float cell value: a finite rational, an infinity,
or NaN.  Finite floats are modelled exactly as rationals. -/
inductive PFloat where
  | fin : ℚ → PFloat
  | inf : PFloat
  | ninf : PFloat
  | nan : PFloat
deriving DecidableEq, Repr

/-- pd.isna on a float: true exactly for NaN. -/
def PFloat.isNan : PFloat → Bool
  | .nan => true
  | _ => false

/-- Negate a float value (used for a leading minus sign). -/
def PFloat.neg : PFloat → PFloat
  | .fin q => .fin (-q)
  | .inf => .ninf
  | .ninf => .inf
  | .nan => .nan

/-- Model of a Python scalar cell as read from a spreadsheet: None, an
int, a float, or a string. -/
inductive PyVal where
  | pynone : PyVal
  | vint : Int → PyVal
  | vfloat : PFloat → PyVal
  | vstr : String → PyVal
deriving DecidableEq, Repr

/-- ASCII whitespace test matching the characters Python strip() removes
on the inputs this pipeline sees. -/
def isWs (c : Char) : Bool :=
  c = ' ' ∨ c = '\t' ∨ c = '\n' ∨ c = '\r'

/-- Python str.strip() on a character list. -/
def trimChars (l : List Char) : List Char :=
  ((l.dropWhile isWs).reverse.dropWhile isWs).reverse

/-- Python str.strip() on a string. -/
def pyStrip (s : String) : String :=
  String.mk (trimChars s.data)

/-- Python str.lower() (ASCII). -/
def pyLower (s : String) : String :=
  String.mk (s.data.map Char.toLower)

/-- Python str.replace(old, new) with a one-character old and either a
one-character or empty new: drop or substitute every occurrence. -/
def replaceChar (old : Char) (new : Option Char) (l : List Char) : List Char :=
  l.foldr (fun c acc => if c = old then (match new with | some n => n :: acc | none => acc) else c :: acc) []

/-- Parse a nonempty all-digit character list as a natural number. -/
def digitsToNat? (l : List Char) : Option Nat :=
  if l = [] then none
  else if l.all Char.isDigit then
    some (l.foldl (fun acc c => acc * 10 + (c.toNat - 48)) 0)
  else none

/-- Python int(str): optional sign then digits.  (Underscore digit
separators, legal in Python numeric strings, are not modelled; no input
in this pipeline contains them.) -/
def pyInt? (s : String) : Option Int :=
  match trimChars s.data with
  | '+' :: ds => (digitsToNat? ds).map Int.ofNat
  | '-' :: ds => (digitsToNat? ds).map (fun n => -(n : Int))
  | ds => (digitsToNat? ds).map Int.ofNat

/-- Value of an optional digit run, used for the fractional part. -/
def fracVal (l : List Char) : ℚ :=
  (l.foldl (fun acc c => acc * 10 + (c.toNat - 48)) 0 : Nat) / ((10 : ℚ) ^ l.length)

/-- Split a character list at the first occurrence of c, if any. -/
def splitOnce (c : Char) : List Char → Option (List Char × List Char)
  | [] => none
  | x :: xs =>
    if x = c then some ([], xs)
    else (splitOnce c xs).map (fun p => (x :: p.1, p.2))

/-- Parse the mantissa of a Python float literal: digits with at most
one dot, at least one digit overall. -/
def mantissa? (l : List Char) : Option ℚ :=
  match splitOnce '.' l with
  | none =>
    (digitsToNat? l).map (fun n => (n : ℚ))
  | some (ip, fp) =>
    if ip = [] ∧ fp = [] then none
    else if ip.all Char.isDigit ∧ fp.all Char.isDigit then
      some ((ip.foldl (fun acc c => acc * 10 + (c.toNat - 48)) 0 : Nat) + fracVal fp)
    else none

/-- Parse an exponent digit run with optional sign. -/
def exponent? (l : List Char) : Option Int :=
  match l with
  | '+' :: ds => (digitsToNat? ds).map Int.ofNat
  | '-' :: ds => (digitsToNat? ds).map (fun n => -(n : Int))
  | ds => (digitsToNat? ds).map Int.ofNat

/-- Scale a rational by a power of ten. -/
def scalePow10 (q : ℚ) (e : Int) : ℚ :=
  if 0 ≤ e then q * (10 : ℚ) ^ e.toNat else q / (10 : ℚ) ^ (-e).toNat

/-- Parse an unsigned Python float body (after sign removal and
lowercasing): inf, infinity, nan, or decimal mantissa with optional
exponent. -/
def pyFloatBody? (l : List Char) : Option PFloat :=
  if l = "inf".data ∨ l = "infinity".data then some .inf
  else if l = "nan".data then some .nan
  else
    match splitOnce 'e' l with
    | none => (mantissa? l).map PFloat.fin
    | some (m, ex) =>
      match mantissa? m, exponent? ex with
      | some q, some e => some (.fin (scalePow10 q e))
      | _, _ => none

/-- Python float(str): strip whitespace, optional sign, then an
inf/infinity/nan word (case-insensitive) or a decimal literal with
optional exponent.  Returns none where float() raises ValueError.
(Underscore digit separators are not modelled.) -/
def pyFloat? (s : String) : Option PFloat :=
  let t := (trimChars s.data).map Char.toLower
  match t with
  | '+' :: body => pyFloatBody? body
  | '-' :: body => (pyFloatBody? body).map PFloat.neg
  | body => pyFloatBody? body

/-- Python str() of a cell value, for the cases the pipeline exercises.
For a non-NaN float the code only ever round-trips str(x) back through
float(), which returns x by the repr round-trip guarantee, so the model
short-circuits that case at its call sites; the rendering given here for
finite floats covers integral values only and is unused by any theorem
on non-integral floats. -/
def pyStrCell : PyVal → String
  | .pynone => "None"
  | .vint n => toString n
  | .vstr s => s
  | .vfloat .nan => "nan"
  | .vfloat .inf => "inf"
  | .vfloat .ninf => "-inf"
  | .vfloat (.fin q) => if q.den = 1 then toString q.num ++ ".0" else toString q.num ++ "/" ++ toString q.den

/-- Source: _parse_rate_percent (identical in src/utils.py,
scripts/upload_excel_to_supabase.py and
scripts/generate_supabase_seed_from_excel.py).  None/NaN input gives
None; otherwise str(value).strip(); empty gives None; remove every
percent sign and space, turn commas into dots, and parse with float(),
returning None on failure.  For a non-NaN float input the
str-then-float round trip returns the input float unchanged (its repr
contains no percent, space or comma), which the model applies
directly. -/
def parse_rate_percent : PyVal → Option PFloat
  | .pynone => none
  | .vfloat x => if x.isNan then none else some x
  | v =>
    let s := trimChars (pyStrCell v).data
    if s = [] then none
    else
      pyFloat? (String.mk (replaceChar ',' (some '.') (replaceChar ' ' none (replaceChar '%' none s))))

/-- Source: _ID_MONTH in src/utils.py (duplicated verbatim in both
scripts): the fixed 12-entry Indonesian month-name lexicon. -/
def ID_MONTH : List (String × Int) :=
  [("januari", 1), ("februari", 2), ("maret", 3), ("april", 4), ("mei", 5), ("juni", 6),
   ("juli", 7), ("agustus", 8), ("september", 9), ("oktober", 10), ("november", 11), ("desember", 12)]

/-- Python str.split() with no argument: split on whitespace runs,
discarding empty pieces. -/
def pySplitAux (cur : List Char) (acc : List String) : List Char → List String
  | [] => if cur = [] then acc.reverse else (String.mk cur.reverse :: acc).reverse
  | c :: cs =>
    if isWs c then
      if cur = [] then pySplitAux [] acc cs
      else pySplitAux [] (String.mk cur.reverse :: acc) cs
    else pySplitAux (c :: cur) acc cs

/-- Python str.split() on a string. -/
def pySplit (s : String) : List String :=
  pySplitAux [] [] s.data

/-- Source: _parse_periode_bulan_tahun in src/utils.py.  Parse a cell
like "Desember 2025" into (month, year).  None/NaN gives (None, None);
otherwise split str(value) on whitespace; with at least two tokens the
first token is looked up (lowercased) in the month lexicon and the last
token is parsed with int(); otherwise (None, None).  The str() of an
int or non-NaN float contains no whitespace, so those inputs always
fall to the single-token branch. -/
def parse_periode_bulan_tahun (v : PyVal) : Option Int × Option Int :=
  match v with
  | .pynone => (none, none)
  | .vfloat x => if x.isNan then (none, none) else (none, none)
  | .vint _ => (none, none)
  | .vstr s0 =>
    let s := pyStrip s0
    if s.data = [] then (none, none)
    else
      let parts := pySplit s
      if 2 ≤ parts.length then
        ((ID_MONTH.lookup (pyLower (pyStrip (parts.headI)))),
         (pyInt? (pyStrip (parts.getLastD ""))))
      else (none, none)

/-- pd.to_numeric(value, errors="coerce") on a scalar cell: None gives
NaN, numbers pass through, strings are parsed as numeric text (the
same grammar as float()), anything unparseable gives NaN. -/
def to_numeric (v : PyVal) : PFloat :=
  match v with
  | .pynone => .nan
  | .vint n => .fin n
  | .vfloat x => x
  | .vstr s => match pyFloat? s with | some x => x | none => .nan

/-- A raw inflation row: the four cells of one record of a frame fed to
the combiner, before type coercion. -/
structure RawRow where
  provinsi : PyVal
  tahun : PyVal
  bulan : PyVal
  inflasi : PyVal
deriving DecidableEq, Repr

/-- A typed inflation record after the coercion block of
baca_data_inflasi_excel: Provinsi as str, Tahun and Bulan as int,
Inflasi (%) as float. -/
structure TRow where
  provinsi : String
  tahun : Int
  bulan : Int
  inflasi : PFloat
deriving DecidableEq, Repr

/-- Python float-to-int conversion (astype(int)): truncation toward
zero.  The source raises on an infinite value; no theorem exercises
that case and the model returns 0 there. -/
def astypeInt (x : PFloat) : Int :=
  match x with
  | .fin q => q.num.tdiv (q.den : Int)
  | _ => 0

/-- The typed record a raw row coerces to (the astype/to_numeric block
of baca_data_inflasi_excel, lines 281-287 of src/utils.py). -/
def coerceRow (r : RawRow) : TRow :=
  ⟨pyStrCell r.provinsi, astypeInt (to_numeric r.tahun), astypeInt (to_numeric r.bulan),
   to_numeric r.inflasi⟩

/-- The coercion-plus-dropna step: Provinsi is astype(str) first and so
never missing; a row is kept only if Tahun, Bulan and Inflasi (%) all
coerce to non-NaN values (dropna on the four standard columns). -/
def coerceDropValid (l : List RawRow) : List TRow :=
  (l.filter (fun r =>
    ¬ (to_numeric r.tahun).isNan ∧ ¬ (to_numeric r.bulan).isNan ∧
      ¬ (to_numeric r.inflasi).isNan)).map coerceRow

/-- The combiner's natural key (Provinsi, Tahun, Bulan). -/
def keyOf (r : TRow) : String × Int × Int :=
  (r.provinsi, r.tahun, r.bulan)

/-- Lexicographic comparison of character lists by code point, the
order Python string comparison (and hence the pandas object-column
sort) uses. -/
def strLtB : List Char → List Char → Bool
  | [], [] => false
  | [], _ :: _ => true
  | _ :: _, [] => false
  | x :: xs, y :: ys => if x < y then true else if y < x then false else strLtB xs ys

/-- Strict code-point lexicographic order on strings. -/
def strLt (a b : String) : Prop :=
  strLtB a.data b.data = true

instance : DecidableRel strLt := by
  intro a b
  unfold strLt
  infer_instance

/-- Lexicographic sort order on the natural key, the order
sort_values(["Provinsi", "Tahun", "Bulan"]) establishes. -/
def keyLE (a b : TRow) : Prop :=
  strLt a.provinsi b.provinsi ∨
    (a.provinsi = b.provinsi ∧ (a.tahun < b.tahun ∨ (a.tahun = b.tahun ∧ a.bulan ≤ b.bulan)))

/-- Strict lexicographic order on the natural key. -/
def keyLT (a b : TRow) : Prop :=
  strLt a.provinsi b.provinsi ∨
    (a.provinsi = b.provinsi ∧ (a.tahun < b.tahun ∨ (a.tahun = b.tahun ∧ a.bulan < b.bulan)))

instance : DecidableRel keyLE := by
  intro a b
  unfold keyLE
  infer_instance

instance : DecidableRel keyLT := by
  intro a b
  unfold keyLT
  infer_instance

/-- drop_duplicates(subset=natural key, keep="last"): keep a row only
when no later row carries the same key, preserving the order of kept
rows. -/
def dedupLast : List TRow → List TRow
  | [] => []
  | x :: xs => if xs.any (fun y => keyOf y = keyOf x) then dedupLast xs else x :: dedupLast xs

/-- The sort-dedup tail of the combiner: sort_values on the three key
columns (a stable lexicographic sort, numpy lexsort, modelled by stable
insertion sort on the key order) followed by
drop_duplicates(keep="last"). -/
def sortDedup (l : List TRow) : List TRow :=
  dedupLast (List.insertionSort keyLE l)

/-- Source: the concat-coerce-dropna-sort-dedup pipeline of
baca_data_inflasi_excel (src/utils.py lines 278-291) applied to the
concatenation of the loaded frames. -/
def combineRaw (l : List RawRow) : List TRow :=
  sortDedup (coerceDropValid l)

/-- Source: baca_data_inflasi_excel (src/utils.py lines 251-298).  Each
configured source file is either absent (skipped) or parses to a frame;
empty frames are also skipped.  If no frame remains the empty standard
table is returned, else the frames are concatenated and pushed through
the coerce-dropna-sort-dedup pipeline. -/
def baca_data_inflasi_excel (files : List (Option (List RawRow))) : List TRow :=
  let frames := (files.filterMap id).filter (fun f => f ≠ [])
  if frames = [] then [] else combineRaw frames.flatten

/-- A pandas DataFrame modelled as its ordered list of named columns. -/
def ColDF := List (String × List PyVal)

/-- Source: the kolom_mapping table of normalisasi_data_inflasi
(src/utils.py lines 347-352). -/
def kolom_mapping : List (String × List String) :=
  [("provinsi", ["Provinsi", "provinsi", "Province", "province"]),
   ("tahun", ["Tahun", "tahun", "Year", "year"]),
   ("bulan", ["Bulan", "bulan", "Month", "month"]),
   ("inflasi", ["Inflasi (%)", "inflasi", "Inflasi", "inflation", "Inflation (%)"])]

/-- The standard inflation schema INFLASI_STD_COLUMNS. -/
def INFLASI_STD_COLUMNS : List String :=
  ["Provinsi", "Tahun", "Bulan", "Inflasi (%)"]

/-- For one logical key, the first DataFrame column whose name is among
the possibilities (the inner for/break loop of normalisasi). -/
def pickCol (df : ColDF) (poss : List String) : Option String :=
  (df.map Prod.fst).find? (fun c => poss.contains c)

/-- Source: normalisasi_data_inflasi (src/utils.py lines 340-374).  For
each of the four logical keys pick the first matching column; with
fewer than four picks return the empty standard table; otherwise select
exactly those columns and rename them to the standard schema.  No value
of any row is inspected or altered. -/
def normalisasi_data_inflasi (df : ColDF) : ColDF :=
  let picks := kolom_mapping.filterMap (fun kp => pickCol df kp.2)
  if picks.length < 4 then INFLASI_STD_COLUMNS.map (fun c => (c, []))
  else INFLASI_STD_COLUMNS.zip (picks.map (fun c => ((df.lookup c).getD [])))

/-- A fetched inflation row as supabase_client.fetch_inflasi_df sees it
after column renaming: region text, integer year and month, numeric
rate (the backing table declares all four non-null). -/
structure FRow where
  provinsi : String
  tahun : Int
  bulan : Int
  inflasi : ℚ
deriving DecidableEq, Repr

/-- Source: provinsi_mapping_pre in src/supabase_client.py (lines
154-177): exact-match replacements applied before title casing. -/
def provinsi_mapping_pre : List (String × String) :=
  [("ACEH", "Aceh"), ("BALI", "Bali"), ("BANTEN", "Banten"), ("BENGKULU", "Bengkulu"),
   ("DI YOGYAKARTA", "DI Yogyakarta"), ("DKI JAKARTA", "DKI Jakarta"),
   ("GORONTALO", "Gorontalo"), ("JAMBI", "Jambi"), ("JAWA BARAT", "Jawa Barat"),
   ("JAWA TENGAH", "Jawa Tengah"), ("JAWA TIMUR", "Jawa Timur"),
   ("KALIMANTAN BARAT", "Kalimantan Barat"), ("KALIMANTAN SELATAN", "Kalimantan Selatan"),
   ("KALIMANTAN TENGAH", "Kalimantan Tengah"), ("KALIMANTAN TIMUR", "Kalimantan Timur"),
   ("KALIMANTAN UTARA", "Kalimantan Utara"),
   ("KEPULAUAN BANGKA BELITUNG", "Bangka Belitung"), ("KEPULAUAN RIAU", "Kepulauan Riau"),
   ("LAMPUNG", "Lampung"), ("MALUKU", "Maluku"), ("PAPUA BARAT DAYA", "Papua Barat Daya")]

/-- Source: provinsi_mapping_post in src/supabase_client.py (lines
185-195): exact-match replacements applied after title casing. -/
def provinsi_mapping_post : List (String × String) :=
  [("Di Yogyakarta", "DI Yogyakarta"), ("Dki Jakarta", "DKI Jakarta"),
   ("Kep. Bangka Belitung", "Bangka Belitung"), ("Kep. Riau", "Kepulauan Riau"),
   ("Kepulauan Bangka Belitung", "Bangka Belitung"), ("Kepulauan Riau", "Kepulauan Riau")]

/-- Series.replace with a dict: exact full-string matches are replaced,
everything else passes through. -/
def applyMap (m : List (String × String)) (s : String) : String :=
  (m.lookup s).getD s

/-- Python str.title() on a character list: an alphabetic character is
uppercased after a non-alphabetic position and lowercased after an
alphabetic one (ASCII, which covers every region name). -/
def titleCaseAux : Bool → List Char → List Char
  | _, [] => []
  | prevAlpha, c :: cs =>
    (if c.isAlpha then (if prevAlpha then c.toLower else c.toUpper) else c) ::
      titleCaseAux c.isAlpha cs

/-- Python str.title() on a string. -/
def titleCase (s : String) : String :=
  String.mk (titleCaseAux false s.data)

/-- The full region-name canonicalization of fetch_inflasi_df: pre-map,
then title case, then post-map. -/
def canonProvinsi (s : String) : String :=
  applyMap provinsi_mapping_post (titleCase (applyMap provinsi_mapping_pre s))

/-- Canonicalize the region name of one fetched row. -/
def canonFRow (r : FRow) : FRow :=
  ⟨canonProvinsi r.provinsi, r.tahun, r.bulan, r.inflasi⟩

/-- Natural key of a fetched row. -/
def fKey (r : FRow) : String × Int × Int :=
  (r.provinsi, r.tahun, r.bulan)

/-- Lexicographic order on group keys, the order groupby(sort=True)
emits groups in. -/
def gkeyLE (a b : String × Int × Int) : Prop :=
  strLt a.1 b.1 ∨ (a.1 = b.1 ∧ (a.2.1 < b.2.1 ∨ (a.2.1 = b.2.1 ∧ a.2.2 ≤ b.2.2)))

instance : DecidableRel gkeyLE := by
  intro a b
  unfold gkeyLE
  infer_instance

/-- The order of the final sort_values(["Tahun", "Bulan", "Provinsi"])
in fetch_inflasi_df. -/
def finalLE (a b : FRow) : Prop :=
  a.tahun < b.tahun ∨
    (a.tahun = b.tahun ∧ (a.bulan < b.bulan ∨
      (a.bulan = b.bulan ∧ (strLt a.provinsi b.provinsi ∨ a.provinsi = b.provinsi))))

instance : DecidableRel finalLE := by
  intro a b
  unfold finalLE
  infer_instance

/-- The single record groupby(...)["Inflasi (%)"].mean() produces for
key k: the mean of the rates of the rows carrying k. -/
def meanFor (c : List FRow) (k : String × Int × Int) : FRow :=
  let g := c.filter (fun r => fKey r = k)
  ⟨k.1, k.2.1, k.2.2, (g.map FRow.inflasi).sum / (g.length : ℚ)⟩

/-- Source: fetch_inflasi_df (src/supabase_client.py lines 104-217)
from the renamed four-column frame onward: canonicalize region names
(pre-map, title case, post-map), group by the natural key averaging the
rate within each group (groups in sorted key order), then coerce types
(a no-op on rows of this typed shape), drop missing values (none
arise), and sort by (Tahun, Bulan, Provinsi). -/
def fetch_inflasi_df (rows : List FRow) : List FRow :=
  let c := rows.map canonFRow
  List.insertionSort finalLE
    ((List.insertionSort gkeyLE ((c.map fKey).dedup)).map (meanFor c))

/-- An input to the Indonesian date parser: missing, an
already-structured datetime-like value, or text. -/
inductive DInput where
  | dnull : DInput
  | dstruct : Int → Int → Int → DInput
  | dtext : String → DInput

/-- A calendar date (year, month, day). -/
structure PDate where
  y : Int
  m : Int
  d : Int
deriving DecidableEq, Repr

/-- Outcome of the date parser: an uncaught exception, the missing
marker NaT, or a date. -/
inductive DateResult where
  | raised : DateResult
  | naT : DateResult
  | got : PDate → DateResult
deriving DecidableEq, Repr

/-- Gregorian leap-year rule (as used by pandas timestamps). -/
def isLeap (y : Int) : Bool :=
  y % 4 = 0 ∧ (y % 100 ≠ 0 ∨ y % 400 = 0)

/-- Days in a month. -/
def daysInMonth (y m : Int) : Int :=
  if m = 1 ∨ m = 3 ∨ m = 5 ∨ m = 7 ∨ m = 8 ∨ m = 10 ∨ m = 12 then 31
  else if m = 4 ∨ m = 6 ∨ m = 9 ∨ m = 11 then 30
  else if m = 2 then (if isLeap y then 29 else 28)
  else 0

/-- pd.Timestamp(year=y, month=m, day=d): a midnight timestamp exists
exactly for valid Gregorian dates inside the nanosecond int64 range
(1677-09-22 through 2262-04-11); outside it the constructor raises,
modelled as none. -/
def mkTimestamp? (y m d : Int) : Option PDate :=
  if (1 ≤ m ∧ m ≤ 12 ∧ 1 ≤ d ∧ d ≤ daysInMonth y m) ∧
     (1677 < y ∨ (y = 1677 ∧ (9 < m ∨ (m = 9 ∧ 22 ≤ d)))) ∧
     (y < 2262 ∨ (y = 2262 ∧ (m < 4 ∨ (m = 4 ∧ d ≤ 11)))) then
    some ⟨y, m, d⟩
  else none

/-- Source: _parse_tanggal_indonesia (scripts/upload_excel_to_supabase.py
lines 142-173, duplicated in scripts/generate_supabase_seed_from_excel.py
lines 47-73).  The generic pandas text-date parser pd.to_datetime is an
external collaborator, supplied as the parameter g (g s = none models
to_datetime raising in errors="raise" mode and returning NaT in
errors="coerce" mode).  None gives NaT; an already-structured value is
returned unchanged by the first to_datetime attempt; text is tried
generically first, then against the "day month-name year" pattern with
the 12-entry lexicon (month matched case-insensitively, day and year
via int() with failure giving NaT), where an out-of-range date makes
the unguarded pd.Timestamp constructor raise; other shapes fall back to
the generic parse in coerce mode. -/
def parse_tanggal_indonesia (g : String → Option PDate) : DInput → DateResult
  | .dnull => .naT
  | .dstruct y m d => .got ⟨y, m, d⟩
  | .dtext s =>
    match g s with
    | some d => .got d
    | none =>
      let t := pyStrip s
      if t.data = [] then .naT
      else
        match pySplit t with
        | [ds, ms, ys] =>
          (match pyInt? ds, pyInt? ys with
           | some day, some year =>
             (match ID_MONTH.lookup (pyLower (pyStrip ms)) with
              | some month =>
                (match mkTimestamp? year month day with
                 | some d => .got d
                 | none => .raised)
              | none => .naT)
           | _, _ => .naT)
        | _ =>
          (match g t with
           | some d => .got d
           | none => .naT)

/-- Does one character list start with another. -/
def leadMatch : List Char → List Char → Bool
  | [], _ => true
  | _ :: _, [] => false
  | a :: as, b :: bs => a = b && leadMatch as bs

/-- Python substring containment (needle in hay) on character lists. -/
def containsSeq (needle : List Char) : List Char → Bool
  | [] => needle = []
  | c :: t => leadMatch needle (c :: t) || containsSeq needle t

/-- Python substring containment on strings. -/
def strContains (hay frag : String) : Bool :=
  containsSeq frag.data hay.data

/-- Outcome of one failing upsert batch in _upsert_in_batches: the
table-missing guidance exit, the row-level-security guidance exit (both
carrying the table name and the original error text), or the original
error re-raised unchanged. -/
inductive UpsertOutcome where
  | tableMissingGuidance : String → String → UpsertOutcome
  | rlsGuidance : String → String → UpsertOutcome
  | reraised : String → UpsertOutcome
deriving DecidableEq, Repr

/-- Source: the except block of _upsert_in_batches
(scripts/upload_excel_to_supabase.py lines 323-341).  The lowercased
error text is scanned for the table-missing fragments first, then for
the row-level-security fragment (lowercased) or the 42501 code (matched
against the raw text, which for a digit string equals case-insensitive
matching); anything else is re-raised unchanged. -/
def classify_upsert_error (table msg : String) : UpsertOutcome :=
  let low := pyLower msg
  if strContains low "pgrst205" ∨ strContains low "schema cache" ∨
     strContains low "could not find the table" then
    .tableMissingGuidance table msg
  else if strContains low "row-level security" ∨ strContains msg "42501" then
    .rlsGuidance table msg
  else .reraised msg

/-- Helper for chunked, structurally recursive on a fuel argument; with
a positive chunk size, fuel equal to the list length always suffices. -/
def chunkedFuel (n : Nat) : Nat → List α → List (List α)
  | 0, _ => []
  | _, [] => []
  | f + 1, rows => rows.take n :: chunkedFuel n f (rows.drop n)

/-- Source: _chunked (scripts/generate_supabase_seed_from_excel.py lines
110-112) and the identical batch loop of _upsert_in_batches
(scripts/upload_excel_to_supabase.py lines 319-321): successive slices
rows[i : i + n] for i = 0, n, 2n, ... (callers guarantee n ≥ 1). -/
def chunked (n : Nat) (rows : List α) : List (List α) :=
  chunkedFuel n rows.length rows

/-- Each element repeated twice in place, the shape a stable key-sort
gives the concatenation of a strictly key-sorted table with itself. -/
def doubleEach : List α → List α
  | [] => []
  | a :: t => a :: a :: doubleEach t

/-- A raw row that is already of the typed shape the loaders emit:
string region, int year and month, finite float rate. -/
def typedOk (r : RawRow) : Prop :=
  (∃ s, r.provinsi = .vstr s) ∧ (∃ n, r.tahun = .vint n) ∧
    (∃ n, r.bulan = .vint n) ∧ (∃ q, r.inflasi = .vfloat (.fin q))

/-- A canonical raw table: already-typed valid rows whose coerced
records are strictly sorted by the natural key (hence key-distinct), as
the combiner itself outputs. -/
def CanonicalRaw (T : List RawRow) : Prop :=
  (∀ r ∈ T, typedOk r) ∧ (T.map coerceRow).Pairwise keyLT

/-- Two rows sharing the natural key ("Aceh", 2025, 1) with rates 3.0
then 3.5 in that file order. -/
def acehPair : List RawRow :=
  [⟨.vstr "Aceh", .vint 2025, .vint 1, .vfloat (.fin 3)⟩,
   ⟨.vstr "Aceh", .vint 2025, .vint 1, .vfloat (.fin (7/2))⟩]

/-- A DataFrame already carrying the standard column names but with a
month value of 13. -/
def dfMonth13 : ColDF :=
  [("Provinsi", [.vstr "Aceh"]), ("Tahun", [.vint 2025]),
   ("Bulan", [.vint 13]), ("Inflasi (%)", [.vfloat (.fin 3)])]

/-- A single already-typed valid row, used to instantiate canonical
tables. -/
def oneRow : RawRow :=
  ⟨.vstr "Aceh", .vint 2024, .vint 1, .vfloat (.fin 3)⟩

/-- Two fetched rows for the same period whose region spellings differ
in casing, with rates 3 and 5. -/
def fetchedPair : List FRow :=
  [⟨"ACEH", 2025, 1, 3⟩, ⟨"aceh", 2025, 1, 5⟩]

/-- A generic date parser that never succeeds, standing in for
pd.to_datetime on text it cannot interpret (such as strings containing
Indonesian month names). -/
def gNone : String → Option PDate :=
  fun _ => none

theorem chunkedFuel_nil (n f : Nat) : chunkedFuel (α := α) n f [] = [] := by
  cases f <;> rfl

theorem chunkedFuel_congr (n : Nat) (hn : 0 < n) :
    ∀ f f' (rows : List α), rows.length ≤ f → rows.length ≤ f' →
      chunkedFuel n f rows = chunkedFuel n f' rows := by
  intro f
  induction f with
  | zero =>
    intro f' rows hf _
    have : rows = [] := List.eq_nil_of_length_eq_zero (Nat.le_zero.mp hf)
    subst this
    rw [chunkedFuel_nil, chunkedFuel_nil]
  | succ f ih =>
    intro f' rows hf hf'
    match rows with
    | [] => rw [chunkedFuel_nil, chunkedFuel_nil]
    | r :: t =>
      match f' with
      | 0 => simp at hf'
      | f'' + 1 =>
        show (r :: t).take n :: chunkedFuel n f ((r :: t).drop n) =
          (r :: t).take n :: chunkedFuel n f'' ((r :: t).drop n)
        have hd : ((r :: t).drop n).length ≤ f := by
          simp only [List.length_drop, List.length_cons]
          simp only [List.length_cons] at hf
          omega
        have hd' : ((r :: t).drop n).length ≤ f'' := by
          simp only [List.length_drop, List.length_cons]
          simp only [List.length_cons] at hf'
          omega
        rw [ih f'' ((r :: t).drop n) hd hd']

theorem chunked_nil (n : Nat) : chunked (α := α) n [] = [] :=
  rfl

theorem chunked_cons (n : Nat) (hn : 0 < n) (rows : List α) (h : rows ≠ []) :
    chunked n rows = rows.take n :: chunked n (rows.drop n) := by
  match rows with
  | [] => exact absurd rfl h
  | r :: t =>
    show chunkedFuel n (t.length + 1) (r :: t) = (r :: t).take n :: chunked n ((r :: t).drop n)
    show (r :: t).take n :: chunkedFuel n t.length ((r :: t).drop n) =
      (r :: t).take n :: chunked n ((r :: t).drop n)
    rw [chunkedFuel_congr n hn t.length ((r :: t).drop n).length ((r :: t).drop n)
      (by simp only [List.length_drop, List.length_cons]; omega) (le_refl _)]
    rfl

theorem chunked_flatten (n : Nat) (hn : 0 < n) (rows : List α) :
    (chunked n rows).flatten = rows := by
  generalize hL : rows.length = L
  induction L using Nat.strong_induction_on generalizing rows with
  | _ L ih =>
    match rows with
    | [] => rfl
    | r :: t =>
      rw [chunked_cons n hn (r :: t) (by simp)]
      have hlt : ((r :: t).drop n).length < L := by
        simp only [List.length_drop, List.length_cons]
        simp only [List.length_cons] at hL
        omega
      simp only [List.flatten_cons]
      rw [ih ((r :: t).drop n).length hlt ((r :: t).drop n) rfl]
      exact List.take_append_drop n (r :: t)

theorem chunked_chunks_ne_nil (n : Nat) (hn : 0 < n) (rows : List α) :
    ∀ c ∈ chunked n rows, c ≠ [] := by
  generalize hL : rows.length = L
  induction L using Nat.strong_induction_on generalizing rows with
  | _ L ih =>
    match rows with
    | [] => intro c hc; simp [chunked_nil] at hc
    | r :: t =>
      rw [chunked_cons n hn (r :: t) (by simp)]
      intro c hc
      rcases List.mem_cons.mp hc with h | h
      · subst h
        match n, hn with
        | m + 1, _ => simp
      · have hlt : ((r :: t).drop n).length < L := by
          simp only [List.length_drop, List.length_cons]
          simp only [List.length_cons] at hL
          omega
        exact ih ((r :: t).drop n).length hlt ((r :: t).drop n) rfl c h

theorem chunked_ne_nil_of_arg_ne_nil (n : Nat) (rows : List α) (h : chunked n rows ≠ []) :
    rows ≠ [] := by
  intro e
  subst e
  exact h rfl

theorem chunked_get_length (n : Nat) (hn : 0 < n) (rows : List α) :
    ∀ i (h : i + 1 < (chunked n rows).length),
      ((chunked n rows).get ⟨i, Nat.lt_of_succ_lt h⟩).length = n := by
  generalize hL : rows.length = L
  induction L using Nat.strong_induction_on generalizing rows with
  | _ L ih =>
    match rows with
    | [] => intro i h; simp [chunked_nil] at h
    | r :: t =>
      rw [chunked_cons n hn (r :: t) (by simp)]
      intro i h
      have hlt : ((r :: t).drop n).length < L := by
        simp only [List.length_drop, List.length_cons]
        simp only [List.length_cons] at hL
        omega
      match i with
      | 0 =>
        simp only [List.length_cons] at h
        have hrest : chunked n ((r :: t).drop n) ≠ [] := by
          intro e
          rw [e] at h
          simp at h
        have hdrop : (r :: t).drop n ≠ [] :=
          chunked_ne_nil_of_arg_ne_nil n ((r :: t).drop n) hrest
        have hlen : n < (r :: t).length := by
          by_contra hc
          exact hdrop (List.drop_eq_nil_of_le (Nat.le_of_not_lt hc))
        simpa using List.length_take_of_le (Nat.le_of_lt hlen)
      | i + 1 =>
        simp only [List.length_cons] at h
        exact ih ((r :: t).drop n).length hlt ((r :: t).drop n) rfl i (by omega)

/-- C10: for every list of rows and every positive chunk size, chunking
partitions the list into consecutive sublists whose concatenation is
the original list (no row lost, duplicated or reordered), every chunk
except possibly the last has exactly the chunk size, and every chunk
(in particular the last, whenever the input is non-empty) is
non-empty. -/
theorem chunk_partition_properties (rows : List α) (n : Nat) (hn : 0 < n) :
    (chunked n rows).flatten = rows ∧
    (∀ i (h : i + 1 < (chunked n rows).length),
      ((chunked n rows).get ⟨i, Nat.lt_of_succ_lt h⟩).length = n) ∧
    (∀ c ∈ chunked n rows, c ≠ []) :=
  ⟨chunked_flatten n hn rows, chunked_get_length n hn rows, chunked_chunks_ne_nil n hn rows⟩

/-- Witness for C10 at a concrete input. -/
theorem chunk_partition_properties_witness :
    (chunked 2 [0, 1, 2]).flatten = [0, 1, 2] ∧
    (∀ i (h : i + 1 < (chunked 2 [0, 1, 2]).length),
      ((chunked 2 [0, 1, 2]).get ⟨i, Nat.lt_of_succ_lt h⟩).length = 2) ∧
    (∀ c ∈ chunked 2 [0, 1, 2], c ≠ []) :=
  chunk_partition_properties [0, 1, 2] 2 (by decide)

/-- C7: the sink adapter slices the row list into consecutive batches
of the configured size with one upsert call per batch; 1201 rows at
batch size 500 give exactly the batches of sizes 500, 500 and 201 in
order, whose concatenation is the input. -/
theorem upsert_batching_1201 (rows : List α) (h : rows.length = 1201) :
    (chunked 500 rows).map List.length = [500, 500, 201] ∧
    (chunked 500 rows).flatten = rows := by
  have hn : (0 : Nat) < 500 := by norm_num
  refine ⟨?_, chunked_flatten 500 hn rows⟩
  have h1 : rows ≠ [] := by
    intro e
    rw [e] at h
    simp at h
  rw [chunked_cons 500 hn rows h1]
  have hd1 : (rows.drop 500).length = 701 := by simp [h]
  have h2 : rows.drop 500 ≠ [] := by
    intro e
    rw [e] at hd1
    simp at hd1
  rw [chunked_cons 500 hn (rows.drop 500) h2]
  have hd2 : ((rows.drop 500).drop 500).length = 201 := by simp [h]
  have h3 : (rows.drop 500).drop 500 ≠ [] := by
    intro e
    rw [e] at hd2
    simp at hd2
  rw [chunked_cons 500 hn ((rows.drop 500).drop 500) h3]
  have hd3 : (((rows.drop 500).drop 500).drop 500) = [] := by
    apply List.eq_nil_of_length_eq_zero
    simp [h]
  rw [hd3, chunked_nil]
  simp only [List.map_cons, List.map_nil, List.length_take, h, hd1, hd2]
  decide

/-- Witness for C7 at a concrete 1201-row list. -/
theorem upsert_batching_1201_witness :
    (chunked 500 (List.replicate 1201 0)).map List.length = [500, 500, 201] ∧
    (chunked 500 (List.replicate 1201 0)).flatten = List.replicate 1201 0 :=
  upsert_batching_1201 (List.replicate 1201 0) (by rw [List.length_replicate])

/-- C5: the percent/decimal parser strips percent signs and whitespace,
converts a comma decimal separator to a period, and parses the result
as a float; it returns the invalid marker None rather than an exception
on parse failure and on empty or null input: parse("4,75 %") gives
4.75, parse("") is invalid, parse("abc") is invalid, and None and NaN
inputs are invalid. -/
theorem parse_percent_spec :
    parse_rate_percent (PyVal.vstr "4,75 %") = some (PFloat.fin (19/4)) ∧
    parse_rate_percent (PyVal.vstr "") = none ∧
    parse_rate_percent (PyVal.vstr "abc") = none ∧
    parse_rate_percent PyVal.pynone = none ∧
    parse_rate_percent (PyVal.vfloat PFloat.nan) = none := by
  refine ⟨?_, by decide, by decide, rfl, rfl⟩
  simp +decide [parse_rate_percent, pyStrCell, trimChars, replaceChar, pyFloat?, pyFloatBody?,
    mantissa?, splitOnce, digitsToNat?, fracVal, isWs]
  norm_num

/-- C8: a failing upsert batch is classified by matching string
fragments case-insensitively against the error text: the
table-missing/schema-cache fragments give the run-schema-setup-first
guidance, otherwise the row-level-security fragment or the 42501
access-control code gives the use-privileged-credential guidance, and
any other error is re-raised with its message unchanged; the two
guidance outcomes are distinct and the fragment matching is insensitive
to the casing of the error text. -/
theorem upsert_error_classification :
    (∀ table msg,
      ((strContains (pyLower msg) "pgrst205" ∨ strContains (pyLower msg) "schema cache" ∨
          strContains (pyLower msg) "could not find the table") →
        classify_upsert_error table msg = .tableMissingGuidance table msg) ∧
      (¬(strContains (pyLower msg) "pgrst205" ∨ strContains (pyLower msg) "schema cache" ∨
          strContains (pyLower msg) "could not find the table") →
        (strContains (pyLower msg) "row-level security" ∨ strContains msg "42501") →
        classify_upsert_error table msg = .rlsGuidance table msg) ∧
      (¬(strContains (pyLower msg) "pgrst205" ∨ strContains (pyLower msg) "schema cache" ∨
          strContains (pyLower msg) "could not find the table") →
        ¬(strContains (pyLower msg) "row-level security" ∨ strContains msg "42501") →
        classify_upsert_error table msg = .reraised msg)) ∧
    classify_upsert_error "inflasi" "Could Not Find The Table public.inflasi" =
      .tableMissingGuidance "inflasi" "Could Not Find The Table public.inflasi" ∧
    classify_upsert_error "inflasi" "new row violates ROW-LEVEL SECURITY policy" =
      .rlsGuidance "inflasi" "new row violates ROW-LEVEL SECURITY policy" ∧
    classify_upsert_error "inflasi" "connection reset" = .reraised "connection reset" := by
  refine ⟨?_, by decide, by decide, by decide⟩
  intro table msg
  refine ⟨?_, ?_, ?_⟩
  · intro h
    simp only [classify_upsert_error]
    rw [if_pos h]
  · intro h1 h2
    simp only [classify_upsert_error]
    rw [if_neg h1, if_pos h2]
  · intro h1 h2
    simp only [classify_upsert_error]
    rw [if_neg h1, if_neg h2]

/-- Witness for C8 at a concrete error text. -/
theorem upsert_error_classification_witness :
    classify_upsert_error "t" "stale Schema Cache" =
      UpsertOutcome.tableMissingGuidance "t" "stale Schema Cache" :=
  ((upsert_error_classification.1 "t" "stale Schema Cache").1 (by decide))

/-- C6 counterexample: on the text "32 Desember 2025" the generic parse
fails, the lexicon pattern matches, but the day is out of range, so the
unguarded pd.Timestamp constructor raises; the parser propagates an
exception instead of returning the invalid marker. -/
theorem parse_local_date_raises :
    parse_tanggal_indonesia gNone (DInput.dtext "32 Desember 2025") = DateResult.raised := by
  decide

/-- C6 (amended): the local-date parser accepts already-structured date
values unchanged and null as NaT; for text whose generic parse fails it
accepts "day month-name year" with the 12-entry Indonesian lexicon,
case-insensitively, so "17 Desember 2025" parses to 2025-12-17; and an
exception (rather than the invalid marker) escapes exactly when the
three-token pattern matches with parsable day and year and a known
month name but the resulting calendar date is invalid or out of the
timestamp range. -/
theorem parse_local_date_spec (g : String → Option PDate)
    (hg : g "17 Desember 2025" = none) :
    (∀ y m d, parse_tanggal_indonesia g (DInput.dstruct y m d) = DateResult.got ⟨y, m, d⟩) ∧
    parse_tanggal_indonesia g (DInput.dtext "17 Desember 2025") = DateResult.got ⟨2025, 12, 17⟩ ∧
    parse_tanggal_indonesia g DInput.dnull = DateResult.naT ∧
    (∀ s, parse_tanggal_indonesia g (DInput.dtext s) = DateResult.raised →
      ∃ ds ms ys day year month, pySplit (pyStrip s) = [ds, ms, ys] ∧
        pyInt? ds = some day ∧ pyInt? ys = some year ∧
        ID_MONTH.lookup (pyLower (pyStrip ms)) = some month ∧
        mkTimestamp? year month day = none) := by
  refine ⟨fun y m d => rfl, ?_, rfl, ?_⟩
  · simp only [parse_tanggal_indonesia, hg]
    rfl
  · intro s h
    simp only [parse_tanggal_indonesia] at h
    split at h
    · simp at h
    · split at h
      · simp at h
      · split at h
        · rename_i ds ms ys hsp
          split at h
          · rename_i day year hday hyear
            split at h
            · rename_i month hmonth
              split at h
              · simp at h
              · rename_i hts
                exact ⟨ds, ms, ys, day, year, month, hsp, hday, hyear, hmonth, hts⟩
            · simp at h
          · simp at h
        · split at h
          · simp at h
          · simp at h

/-- Witness for C6 at the concrete generic parser that always fails. -/
theorem parse_local_date_spec_witness :
    parse_tanggal_indonesia gNone (DInput.dtext "17 Desember 2025") =
      DateResult.got ⟨2025, 12, 17⟩ :=
  (parse_local_date_spec gNone rfl).2.1

theorem strLtB_irrefl : ∀ l : List Char, strLtB l l = false := by
  intro l
  induction l with
  | nil => rfl
  | cons x xs ih => simp [strLtB, lt_irrefl, ih]

theorem strLtB_asymm : ∀ a b : List Char, strLtB a b = true → strLtB b a = false := by
  intro a
  induction a with
  | nil =>
    intro b h
    cases b with
    | nil => simp [strLtB] at h
    | cons y ys => rfl
  | cons x xs ih =>
    intro b h
    cases b with
    | nil => simp [strLtB] at h
    | cons y ys =>
      by_cases hxy : x < y
      · simp [strLtB, hxy, lt_asymm hxy]
      · by_cases hyx : y < x
        · simp [strLtB, hxy, hyx] at h
        · simp only [strLtB, if_neg hxy, if_neg hyx] at h
          simp only [strLtB, if_neg hyx, if_neg hxy]
          exact ih ys h

theorem strLtB_trans :
    ∀ a b c : List Char, strLtB a b = true → strLtB b c = true → strLtB a c = true := by
  intro a
  induction a with
  | nil =>
    intro b c hab hbc
    cases b with
    | nil => simp [strLtB] at hab
    | cons y ys =>
      cases c with
      | nil => simp [strLtB] at hbc
      | cons z zs => rfl
  | cons x xs ih =>
    intro b c hab hbc
    cases b with
    | nil => simp [strLtB] at hab
    | cons y ys =>
      cases c with
      | nil => simp [strLtB] at hbc
      | cons z zs =>
        by_cases hxy : x < y
        · by_cases hyz : y < z
          · simp [strLtB, lt_trans hxy hyz]
          · by_cases hzy : z < y
            · simp [strLtB, hyz, hzy] at hbc
            · have hez : y = z := le_antisymm (not_lt.mp hzy) (not_lt.mp hyz)
              subst hez
              simp [strLtB, hxy]
        · by_cases hyx : y < x
          · simp [strLtB, hxy, hyx] at hab
          · have hex : x = y := le_antisymm (not_lt.mp hyx) (not_lt.mp hxy)
            subst hex
            simp only [strLtB, if_neg hxy, if_neg hyx] at hab
            by_cases hxz : x < z
            · simp [strLtB, hxz]
            · by_cases hzx : z < x
              · simp [strLtB, hxz, hzx] at hbc
              · simp only [strLtB, if_neg hxz, if_neg hzx] at hbc ⊢
                exact ih ys zs hab hbc

theorem strLtB_eq_of_both_false :
    ∀ a b : List Char, strLtB a b = false → strLtB b a = false → a = b := by
  intro a
  induction a with
  | nil =>
    intro b hab _
    cases b with
    | nil => rfl
    | cons y ys => simp [strLtB] at hab
  | cons x xs ih =>
    intro b hab hba
    cases b with
    | nil => simp [strLtB] at hba
    | cons y ys =>
      by_cases hxy : x < y
      · simp [strLtB, hxy] at hab
      · by_cases hyx : y < x
        · simp [strLtB, hyx] at hba
        · have hex : x = y := le_antisymm (not_lt.mp hyx) (not_lt.mp hxy)
          subst hex
          simp only [strLtB, if_neg hxy, if_neg hyx] at hab hba
          rw [ih ys hab hba]

theorem strLt_asymm {a b : String} (h : strLt a b) : ¬ strLt b a := by
  unfold strLt at *
  rw [strLtB_asymm _ _ h]
  simp

theorem strLt_irrefl (a : String) : ¬ strLt a a := by
  unfold strLt
  rw [strLtB_irrefl]
  simp

theorem strLt_trans {a b c : String} (h1 : strLt a b) (h2 : strLt b c) : strLt a c :=
  strLtB_trans _ _ _ h1 h2

theorem strLt_total (a b : String) : strLt a b ∨ a = b ∨ strLt b a := by
  by_cases h1 : strLt a b
  · exact Or.inl h1
  · by_cases h2 : strLt b a
    · exact Or.inr (Or.inr h2)
    · refine Or.inr (Or.inl ?_)
      have hd : a.data = b.data := by
        refine strLtB_eq_of_both_false _ _ ?_ ?_
        · unfold strLt at h1
          simpa using h1
        · unfold strLt at h2
          simpa using h2
      cases a with
      | mk da =>
        cases b with
        | mk db => exact congrArg String.mk hd

instance : IsTotal TRow keyLE := by
  constructor
  intro a b
  unfold keyLE
  rcases strLt_total a.provinsi b.provinsi with h | h | h
  · exact Or.inl (Or.inl h)
  · rcases lt_trichotomy a.tahun b.tahun with h2 | h2 | h2
    · exact Or.inl (Or.inr ⟨h, Or.inl h2⟩)
    · rcases le_total a.bulan b.bulan with h3 | h3
      · exact Or.inl (Or.inr ⟨h, Or.inr ⟨h2, h3⟩⟩)
      · exact Or.inr (Or.inr ⟨h.symm, Or.inr ⟨h2.symm, h3⟩⟩)
    · exact Or.inr (Or.inr ⟨h.symm, Or.inl h2⟩)
  · exact Or.inr (Or.inl h)

instance : IsTrans TRow keyLE := by
  constructor
  intro a b c hab hbc
  unfold keyLE at *
  rcases hab with h1 | ⟨e1, h1⟩
  · rcases hbc with h2 | ⟨e2, _⟩
    · exact Or.inl (strLt_trans h1 h2)
    · exact Or.inl (e2 ▸ h1)
  · rcases hbc with h2 | ⟨e2, h2⟩
    · exact Or.inl (e1 ▸ h2)
    · refine Or.inr ⟨e1.trans e2, ?_⟩
      rcases h1 with h1 | ⟨f1, h1⟩
      · rcases h2 with h2 | ⟨f2, _⟩
        · exact Or.inl (h1.trans h2)
        · exact Or.inl (f2 ▸ h1)
      · rcases h2 with h2 | ⟨f2, h2⟩
        · exact Or.inl (f1 ▸ h2)
        · exact Or.inr ⟨f1.trans f2, h1.trans h2⟩

theorem keyOf_eq_iff {a b : TRow} :
    keyOf a = keyOf b ↔ a.provinsi = b.provinsi ∧ a.tahun = b.tahun ∧ a.bulan = b.bulan := by
  unfold keyOf
  simp [Prod.ext_iff]

theorem keyLE_of_key_eq {a b : TRow} (h : keyOf a = keyOf b) : keyLE a b := by
  rw [keyOf_eq_iff] at h
  exact Or.inr ⟨h.1, Or.inr ⟨h.2.1, le_of_eq h.2.2⟩⟩

theorem keyLE_of_keyLT {a b : TRow} (h : keyLT a b) : keyLE a b := by
  rcases h with h | ⟨e, h | ⟨f, h⟩⟩
  · exact Or.inl h
  · exact Or.inr ⟨e, Or.inl h⟩
  · exact Or.inr ⟨e, Or.inr ⟨f, le_of_lt h⟩⟩

theorem keyLT_key_ne {a b : TRow} (h : keyLT a b) : keyOf a ≠ keyOf b := by
  intro he
  rw [keyOf_eq_iff] at he
  rcases h with h | ⟨_, h | ⟨_, h⟩⟩
  · rw [he.1] at h
    exact strLt_irrefl _ h
  · exact absurd he.2.1 (ne_of_lt h)
  · exact absurd he.2.2 (ne_of_lt h)

theorem keyOf_eq_of_le_le {a b : TRow} (h1 : keyLE a b) (h2 : keyLE b a) :
    keyOf a = keyOf b := by
  rcases h1 with h1 | ⟨e1, h1⟩
  · rcases h2 with h2 | ⟨e2, _⟩
    · exact absurd h2 (strLt_asymm h1)
    · rw [e2] at h1
      exact absurd h1 (strLt_irrefl _)
  · rcases h2 with h2 | ⟨e2, h2⟩
    · rw [e1] at h2
      exact absurd h2 (strLt_irrefl _)
    · rcases h1 with h1 | ⟨f1, h1⟩
      · rcases h2 with h2 | ⟨f2, _⟩
        · exact absurd h2 (lt_asymm h1)
        · exact absurd f2 (ne_of_gt h1)
      · rcases h2 with h2 | ⟨f2, h2⟩
        · rw [f1] at h2
          exact absurd h2 (lt_irrefl _)
        · rw [keyOf_eq_iff]
          exact ⟨e1, f1, le_antisymm h1 h2⟩

theorem filter_orderedInsert_pos (p : TRow → Bool)
    (hp : ∀ x y, p x = true → p y = true → keyLE x y) (a : TRow) (ha : p a = true) :
    ∀ l : List TRow, (List.orderedInsert keyLE a l).filter p = a :: l.filter p := by
  intro l
  induction l with
  | nil => simp [List.orderedInsert, ha]
  | cons b t ih =>
    by_cases hle : keyLE a b
    · simp only [List.orderedInsert, if_pos hle]
      simp [List.filter_cons, ha]
    · have hb : p b = false := by
        cases hpb : p b with
        | false => rfl
        | true => exact absurd (hp a b ha hpb) hle
      simp only [List.orderedInsert, if_neg hle]
      simp [List.filter_cons, hb, ih]

theorem filter_orderedInsert_neg (p : TRow → Bool) (a : TRow) (ha : p a = false) :
    ∀ l : List TRow, (List.orderedInsert keyLE a l).filter p = l.filter p := by
  intro l
  induction l with
  | nil => simp [List.orderedInsert, ha]
  | cons b t ih =>
    by_cases hle : keyLE a b
    · simp only [List.orderedInsert, if_pos hle]
      simp [List.filter_cons, ha]
    · simp only [List.orderedInsert, if_neg hle]
      simp [List.filter_cons, ih]

theorem filter_insertionSort (p : TRow → Bool)
    (hp : ∀ x y, p x = true → p y = true → keyLE x y) :
    ∀ l : List TRow, (List.insertionSort keyLE l).filter p = l.filter p := by
  intro l
  induction l with
  | nil => rfl
  | cons a t ih =>
    show (List.orderedInsert keyLE a (List.insertionSort keyLE t)).filter p = _
    cases ha : p a with
    | false => rw [filter_orderedInsert_neg p a ha, ih, List.filter_cons, if_neg (by simp [ha])]
    | true => rw [filter_orderedInsert_pos p hp a ha, ih, List.filter_cons, if_pos (by simp [ha])]

theorem dedupLast_filter_key (k : String × Int × Int) :
    ∀ l : List TRow, (dedupLast l).filter (fun r => keyOf r = k) =
      ((l.filter (fun r => keyOf r = k)).getLast?).toList := by
  intro l
  induction l with
  | nil => rfl
  | cons x xs ih =>
    by_cases hx : keyOf x = k
    · by_cases h : xs.any (fun y => keyOf y = keyOf x) = true
      · have hne : xs.filter (fun r => keyOf r = k) ≠ [] := by
          rcases List.any_eq_true.mp h with ⟨y, hy, hky⟩
          have hyk : keyOf y = k := by
            rw [decide_eq_true_eq] at hky
            rw [hky, hx]
          exact List.ne_nil_of_mem (List.mem_filter.mpr ⟨hy, by simp [hyk]⟩)
        rw [dedupLast, if_pos h, ih]
        rw [List.filter_cons, if_pos (by simp [hx])]
        match hxs : xs.filter (fun r => keyOf r = k), hne with
        | y :: t, _ => simp [List.getLast?_cons_cons]
      · have hnil : xs.filter (fun r => keyOf r = k) = [] := by
          rw [List.filter_eq_nil_iff]
          intro y hy
          simp only [decide_eq_true_eq]
          intro hyk
          rw [List.any_eq_true] at h
          exact h ⟨y, hy, by simp [hyk, hx]⟩
        rw [dedupLast, if_neg h]
        rw [List.filter_cons, if_pos (by simp [hx]), List.filter_cons, if_pos (by simp [hx])]
        rw [ih, hnil]
        rfl
    · have hfx : (x :: xs).filter (fun r => keyOf r = k) = xs.filter (fun r => keyOf r = k) := by
        rw [List.filter_cons, if_neg (by simp [hx])]
      rw [hfx]
      by_cases h : xs.any (fun y => keyOf y = keyOf x) = true
      · rw [dedupLast, if_pos h, ih]
      · rw [dedupLast, if_neg h, List.filter_cons, if_neg (by simp [hx]), ih]

theorem sortDedup_filter (l : List TRow) (k : String × Int × Int) :
    (sortDedup l).filter (fun r => keyOf r = k) =
      ((l.filter (fun r => keyOf r = k)).getLast?).toList := by
  unfold sortDedup
  rw [dedupLast_filter_key k]
  rw [filter_insertionSort _ (fun x y hx hy => by
    rw [decide_eq_true_eq] at hx hy
    exact keyLE_of_key_eq (hx.trans hy.symm)) l]

theorem eq_of_perm_of_sorted_local {α : Type _} {r : α → α → Prop} :
    ∀ {l₁ l₂ : List α}, List.Perm l₁ l₂ → l₁.Sorted r → l₂.Sorted r →
      (∀ a ∈ l₂, ∀ b ∈ l₂, r a b → r b a → a = b) → l₁ = l₂ := by
  intro l₁
  induction l₁ with
  | nil =>
    intro l₂ hp _ _ _
    exact List.Perm.nil_eq hp
  | cons a t ih =>
    intro l₂ hp hs₁ hs₂ anti
    match l₂ with
    | [] =>
      have : ([] : List α) = a :: t := List.Perm.nil_eq hp.symm
      exact absurd this.symm (by simp)
    | b :: t₂ =>
      have hab : a = b := by
        have ha2 : a ∈ b :: t₂ := hp.subset (List.mem_cons_self a t)
        rcases List.mem_cons.mp ha2 with h | h
        · exact h
        · have hba : r b a := List.rel_of_sorted_cons hs₂ a h
          have hb1 : b ∈ a :: t := hp.symm.subset (List.mem_cons_self b t₂)
          rcases List.mem_cons.mp hb1 with h' | h'
          · exact h'.symm
          · have hab' : r a b := List.rel_of_sorted_cons hs₁ b h'
            exact anti a ha2 b (List.mem_cons_self b t₂) hab' hba
      subst hab
      have ht : List.Perm t t₂ := hp.cons_inv
      have : t = t₂ := ih ht hs₁.of_cons hs₂.of_cons
        (fun x hx y hy hxy hyx =>
          anti x (List.mem_cons_of_mem a hx) y (List.mem_cons_of_mem a hy) hxy hyx)
      rw [this]

theorem doubleEach_perm : ∀ L : List α, List.Perm (L ++ L) (doubleEach L) := by
  intro L
  induction L with
  | nil => exact List.Perm.refl _
  | cons a t ih =>
    show List.Perm (a :: (t ++ a :: t)) (a :: a :: doubleEach t)
    exact List.Perm.cons a (List.Perm.trans List.perm_middle (List.Perm.cons a ih))

theorem mem_doubleEach {x : α} : ∀ {L : List α}, x ∈ doubleEach L ↔ x ∈ L := by
  intro L
  induction L with
  | nil => simp [doubleEach]
  | cons a t ih => simp [doubleEach, ih]

theorem sorted_doubleEach : ∀ L : List TRow, L.Pairwise keyLT → (doubleEach L).Sorted keyLE := by
  intro L
  induction L with
  | nil => exact fun _ => List.sorted_nil
  | cons a t ih =>
    intro hp
    show (a :: a :: doubleEach t).Sorted keyLE
    have hrest : ∀ b ∈ doubleEach t, keyLE a b := fun b hb =>
      keyLE_of_keyLT (List.rel_of_pairwise_cons hp (mem_doubleEach.mp hb))
    refine List.Pairwise.cons ?_ (List.Pairwise.cons hrest (ih hp.of_cons))
    intro b hb
    rcases List.mem_cons.mp hb with rfl | hb'
    · exact keyLE_of_key_eq rfl
    · exact hrest b hb'

theorem key_inj_of_pairwise :
    ∀ L : List TRow, L.Pairwise keyLT →
      ∀ a ∈ L, ∀ b ∈ L, keyOf a = keyOf b → a = b := by
  intro L
  induction L with
  | nil =>
    intro _ a ha
    exact absurd ha (List.not_mem_nil a)
  | cons x t ih =>
    intro hp a ha b hb he
    rcases List.mem_cons.mp ha with rfl | ha'
    · rcases List.mem_cons.mp hb with rfl | hb'
      · rfl
      · exact absurd he (keyLT_key_ne (List.rel_of_pairwise_cons hp hb'))
    · rcases List.mem_cons.mp hb with rfl | hb'
      · exact absurd he.symm (keyLT_key_ne (List.rel_of_pairwise_cons hp ha'))
      · exact ih hp.of_cons a ha' b hb' he

theorem dedupLast_of_pairwise : ∀ L : List TRow, L.Pairwise keyLT → dedupLast L = L := by
  intro L
  induction L with
  | nil => exact fun _ => rfl
  | cons x t ih =>
    intro hp
    have h : ¬(t.any (fun y => keyOf y = keyOf x) = true) := by
      rw [List.any_eq_true]
      rintro ⟨y, hy, hky⟩
      rw [decide_eq_true_eq] at hky
      exact keyLT_key_ne (List.rel_of_pairwise_cons hp hy) hky.symm
    rw [dedupLast, if_neg h, ih hp.of_cons]

theorem dedupLast_doubleEach : ∀ L : List TRow, L.Pairwise keyLT →
    dedupLast (doubleEach L) = L := by
  intro L
  induction L with
  | nil => exact fun _ => rfl
  | cons x t ih =>
    intro hp
    show dedupLast (x :: x :: doubleEach t) = x :: t
    have h1 : (x :: doubleEach t).any (fun y => keyOf y = keyOf x) = true := by
      rw [List.any_eq_true]
      exact ⟨x, List.mem_cons_self x _, by simp⟩
    have h2 : ¬((doubleEach t).any (fun y => keyOf y = keyOf x) = true) := by
      rw [List.any_eq_true]
      rintro ⟨y, hy, hky⟩
      rw [decide_eq_true_eq] at hky
      exact keyLT_key_ne (List.rel_of_pairwise_cons hp (mem_doubleEach.mp hy)) hky.symm
    rw [dedupLast, if_pos h1, dedupLast, if_neg h2, ih hp.of_cons]

theorem coerceDropValid_of_typedOk (T : List RawRow) (hT : ∀ r ∈ T, typedOk r) :
    coerceDropValid T = T.map coerceRow := by
  unfold coerceDropValid
  rw [List.filter_eq_self.mpr ?_]
  intro r hr
  obtain ⟨⟨s, hs⟩, ⟨n1, h1⟩, ⟨n2, h2⟩, ⟨q, h3⟩⟩ := hT r hr
  simp [to_numeric, h1, h2, h3, PFloat.isNan]

theorem combineRaw_canonical (T : List RawRow) (h : CanonicalRaw T) :
    combineRaw T = T.map coerceRow := by
  obtain ⟨hok, hsort⟩ := h
  unfold combineRaw sortDedup
  rw [coerceDropValid_of_typedOk T hok]
  rw [List.Sorted.insertionSort_eq (hsort.imp keyLE_of_keyLT)]
  exact dedupLast_of_pairwise _ hsort

theorem combineRaw_append_self (T : List RawRow) (h : CanonicalRaw T) :
    combineRaw (T ++ T) = T.map coerceRow := by
  obtain ⟨hok, hsort⟩ := h
  unfold combineRaw sortDedup
  have hc : coerceDropValid (T ++ T) = T.map coerceRow ++ T.map coerceRow := by
    rw [coerceDropValid_of_typedOk (T ++ T) ?_, List.map_append]
    intro r hr
    rcases List.mem_append.mp hr with h | h
    · exact hok r h
    · exact hok r h
  rw [hc]
  have hperm : List.Perm (List.insertionSort keyLE (T.map coerceRow ++ T.map coerceRow))
      (doubleEach (T.map coerceRow)) :=
    (List.perm_insertionSort keyLE _).trans (doubleEach_perm _)
  have heq : List.insertionSort keyLE (T.map coerceRow ++ T.map coerceRow) =
      doubleEach (T.map coerceRow) :=
    eq_of_perm_of_sorted_local hperm (List.sorted_insertionSort keyLE _)
      (sorted_doubleEach _ hsort)
      (fun a ha b hb hab hba =>
        key_inj_of_pairwise _ hsort a (mem_doubleEach.mp ha) b (mem_doubleEach.mp hb)
          (keyOf_eq_of_le_le hab hba))
  rw [heq, dedupLast_doubleEach _ hsort]

/-- C1: the combiner's deduplication (stable sort by the natural key,
then keep the last occurrence per key) keeps, for every key, exactly
the row appearing last in file order; in particular for two rows with
key ("Aceh", 2025, 1) and rates 3.0 then 3.5 in that file order, the
surviving record carries rate 3.5. -/
theorem combiner_dedup_keeps_last :
    (∀ (l : List TRow) (k : String × Int × Int),
      (sortDedup l).filter (fun r => keyOf r = k) =
        ((l.filter (fun r => keyOf r = k)).getLast?).toList) ∧
    combineRaw acehPair = [⟨"Aceh", 2025, 1, PFloat.fin (7/2)⟩] := by
  refine ⟨sortDedup_filter, ?_⟩
  rfl

/-- C3: combining a canonical (already normalized, key-sorted and
deduplicated) inflation table with an identical copy of itself yields
the same canonical table; the concatenate-coerce-dropna-sort-dedup
pipeline is a no-op on already-deduplicated input. -/
theorem combine_self_idempotent (T : List RawRow) (h : CanonicalRaw T) :
    baca_data_inflasi_excel [some T, some T] = T.map coerceRow ∧
    baca_data_inflasi_excel [some T] = T.map coerceRow := by
  by_cases hT : T = []
  · subst hT
    exact ⟨rfl, rfl⟩
  · constructor
    · have he : baca_data_inflasi_excel [some T, some T] = combineRaw (T ++ T) := by
        unfold baca_data_inflasi_excel
        simp [hT]
      rw [he, combineRaw_append_self T h]
    · have he : baca_data_inflasi_excel [some T] = combineRaw T := by
        unfold baca_data_inflasi_excel
        simp [hT]
      rw [he, combineRaw_canonical T h]

/-- Witness for C3 at a concrete one-row canonical table. -/
theorem combine_self_idempotent_witness :
    baca_data_inflasi_excel [some [oneRow], some [oneRow]] = [oneRow].map coerceRow ∧
    baca_data_inflasi_excel [some [oneRow]] = [oneRow].map coerceRow :=
  combine_self_idempotent [oneRow]
    ⟨fun r hr => by
      rcases List.mem_singleton.mp hr with rfl
      exact ⟨⟨"Aceh", rfl⟩, ⟨2024, rfl⟩, ⟨1, rfl⟩, ⟨3, rfl⟩⟩,
     by simp⟩

/-- C9: an absent source file is skipped by the combiner, contributing
exactly as much as an empty canonical table, and no fault is raised:
combining one present file with one absent file equals combining the
present file alone, equals combining it with an explicitly empty table,
and for a canonical present table yields exactly that table's rows. -/
theorem missing_file_resilience :
    (∀ T : List RawRow, baca_data_inflasi_excel [some T, none] =
      baca_data_inflasi_excel [some T]) ∧
    (∀ T : List RawRow, baca_data_inflasi_excel [some T, none] =
      baca_data_inflasi_excel [some T, some []]) ∧
    (∀ T : List RawRow, CanonicalRaw T →
      baca_data_inflasi_excel [some T, none] = T.map coerceRow) := by
  refine ⟨fun T => rfl, fun T => rfl, fun T h => ?_⟩
  by_cases hT : T = []
  · subst hT
    rfl
  · have he : baca_data_inflasi_excel [some T, none] = combineRaw T := by
      unfold baca_data_inflasi_excel
      simp [hT]
    rw [he, combineRaw_canonical T h]

/-- Witness for C9 at a concrete one-row canonical table. -/
theorem missing_file_resilience_witness :
    baca_data_inflasi_excel [some [oneRow], none] = [oneRow].map coerceRow :=
  missing_file_resilience.2.2 [oneRow]
    ⟨fun r hr => by
      rcases List.mem_singleton.mp hr with rfl
      exact ⟨⟨"Aceh", rfl⟩, ⟨2024, rfl⟩, ⟨1, rfl⟩, ⟨3, rfl⟩⟩,
     by simp⟩

theorem dedupLast_sublist : ∀ l : List TRow, List.Sublist (dedupLast l) l := by
  intro l
  induction l with
  | nil => exact List.Sublist.refl []
  | cons x xs ih =>
    by_cases h : xs.any (fun y => keyOf y = keyOf x) = true
    · rw [dedupLast, if_pos h]
      exact ih.trans (List.sublist_cons_self x xs)
    · rw [dedupLast, if_neg h]
      exact ih.cons₂ x

theorem lookup_range :
    ∀ (l : List (String × Int)) (s : String) (b : Int),
      l.lookup s = some b → (∀ p ∈ l, 1 ≤ p.2 ∧ p.2 ≤ 12) → 1 ≤ b ∧ b ≤ 12 := by
  intro l
  induction l with
  | nil =>
    intro s b h _
    simp [List.lookup] at h
  | cons p t ih =>
    intro s b h hall
    obtain ⟨k, v⟩ := p
    simp only [List.lookup] at h
    by_cases hs : (s == k) = true
    · rw [hs] at h
      have : v = b := by injection h
      subst this
      exact hall (k, v) (List.mem_cons_self _ _)
    · rw [Bool.not_eq_true] at hs
      rw [hs] at h
      exact ih s b h (fun q hq => hall q (List.mem_cons_of_mem _ hq))

/-- C2 counterexample: the fallback column-mapping normalizer only
selects and renames columns, so a record with month 13 survives it
unchanged, and the combined load's coerce-dropna step also lets month
13 and an infinite rate parsed from the text "inf" survive; 13 is not
in [1, 12]. -/
theorem normalizer_passes_month13 :
    normalisasi_data_inflasi dfMonth13 =
      [("Provinsi", [PyVal.vstr "Aceh"]), ("Tahun", [PyVal.vint 2025]),
       ("Bulan", [PyVal.vint 13]), ("Inflasi (%)", [PyVal.vfloat (PFloat.fin 3)])] ∧
    ¬(1 ≤ (13 : Int) ∧ (13 : Int) ≤ 12) ∧
    combineRaw [⟨.vstr "Aceh", .vint 2025, .vint 13, .vfloat (.fin 3)⟩] =
      [⟨"Aceh", 2025, 13, PFloat.fin 3⟩] ∧
    combineRaw [⟨.vstr "Aceh", .vint 2025, .vint 1, .vstr "inf"⟩] =
      [⟨"Aceh", 2025, 1, PFloat.inf⟩] := by
  exact ⟨rfl, by decide, rfl, rfl⟩

/-- C2 (amended): months produced through the Indonesian month lexicon
are always in [1, 12] (the lexicon's values lie in [1, 12] and the
periode parser only emits months from it), and every record surviving
the combined load has a non-missing (non-NaN) rate; the combined load
and the fallback normalizer perform no further validation of month
range or rate finiteness. -/
theorem normalizer_month_guarantees :
    (∀ p ∈ ID_MONTH, 1 ≤ p.2 ∧ p.2 ≤ 12) ∧
    (∀ v b t, parse_periode_bulan_tahun v = (some b, some t) → 1 ≤ b ∧ b ≤ 12) ∧
    (∀ (l : List RawRow) r, r ∈ combineRaw l → r.inflasi.isNan = false) := by
  refine ⟨by decide, ?_, ?_⟩
  · intro v b t h
    match v with
    | .pynone => simp [parse_periode_bulan_tahun] at h
    | .vint n => simp [parse_periode_bulan_tahun] at h
    | .vfloat x =>
      rcases x with q | _ | _ | _ <;> simp [parse_periode_bulan_tahun, PFloat.isNan] at h
    | .vstr s =>
      simp only [parse_periode_bulan_tahun] at h
      by_cases he : (pyStrip s).data = []
      · rw [if_pos he] at h
        simp at h
      · rw [if_neg he] at h
        by_cases hl : 2 ≤ (pySplit (pyStrip s)).length
        · rw [if_pos hl] at h
          have hb := congrArg Prod.fst h
          simp only at hb
          exact lookup_range ID_MONTH _ b hb (by decide)
        · rw [if_neg hl] at h
          simp at h
  · intro l r hr
    unfold combineRaw sortDedup at hr
    have h1 : r ∈ List.insertionSort keyLE (coerceDropValid l) :=
      (dedupLast_sublist _).subset hr
    have h2 : r ∈ coerceDropValid l := (List.perm_insertionSort keyLE _).subset h1
    unfold coerceDropValid at h2
    rcases List.mem_map.mp h2 with ⟨r0, hr0, hcoerce⟩
    have hcond := (List.mem_filter.mp hr0).2
    rw [decide_eq_true_eq] at hcond
    rw [← hcoerce]
    show (to_numeric r0.inflasi).isNan = false
    rcases hnan : (to_numeric r0.inflasi).isNan with _ | _
    · rfl
    · exact absurd hnan (by simpa using hcond.2.2)

/-- Witness for C2's amended claim at a concrete periode cell. -/
theorem normalizer_month_guarantees_witness :
    parse_periode_bulan_tahun (PyVal.vstr "Desember 2025") = (some 12, some 2025) ∧
    (1 ≤ (12 : Int) ∧ (12 : Int) ≤ 12) :=
  ⟨by decide, normalizer_month_guarantees.2.1 (PyVal.vstr "Desember 2025") 12 2025 (by decide)⟩

theorem fKey_meanFor (c : List FRow) (k : String × Int × Int) :
    fKey (meanFor c k) = k := by
  simp [meanFor, fKey]

theorem mem_fetch_inflasi (rows : List FRow) (r : FRow) (h : r ∈ fetch_inflasi_df rows) :
    ∃ k, k ∈ ((rows.map canonFRow).map fKey).dedup ∧ r = meanFor (rows.map canonFRow) k := by
  simp only [fetch_inflasi_df] at h
  have h1 := (List.perm_insertionSort finalLE _).subset h
  rcases List.mem_map.mp h1 with ⟨k, hk, hr⟩
  exact ⟨k, (List.perm_insertionSort gkeyLE _).subset hk, hr.symm⟩

/-- C4: region names arriving in inconsistent casing or abbreviation
are mapped to one fixed canonical spelling per region before
deduplication, and rows then sharing one (region, year, month) key
within a load are resolved to a single record whose rate is the average
of the duplicates' rates: keys are pairwise distinct in the output and
each output rate is the mean of the canonicalized input rows carrying
its key. -/
theorem fetch_canonicalize_and_average :
    (canonProvinsi "ACEH" = "Aceh" ∧
     canonProvinsi "SUMATERA UTARA" = "Sumatera Utara" ∧
     canonProvinsi "dki jakarta" = "DKI Jakarta" ∧
     canonProvinsi "DKI JAKARTA" = "DKI Jakarta" ∧
     canonProvinsi "DI YOGYAKARTA" = "DI Yogyakarta" ∧
     canonProvinsi "Kep. Riau" = "Kepulauan Riau" ∧
     canonProvinsi "KEPULAUAN RIAU" = "Kepulauan Riau" ∧
     canonProvinsi "Kep. Bangka Belitung" = "Bangka Belitung" ∧
     canonProvinsi "KEPULAUAN BANGKA BELITUNG" = "Bangka Belitung") ∧
    (∀ rows : List FRow, ∀ r ∈ fetch_inflasi_df rows, ∀ r2 ∈ fetch_inflasi_df rows,
      fKey r = fKey r2 → r = r2) ∧
    (∀ rows : List FRow, ∀ r ∈ fetch_inflasi_df rows,
      (rows.map canonFRow).filter (fun x => fKey x = fKey r) ≠ [] ∧
      r.inflasi =
        (((rows.map canonFRow).filter (fun x => fKey x = fKey r)).map FRow.inflasi).sum /
          ((((rows.map canonFRow).filter (fun x => fKey x = fKey r)).length : ℚ))) := by
  refine ⟨⟨by decide, by decide, by decide, by decide, by decide, by decide, by decide,
    by decide, by decide⟩, ?_, ?_⟩
  · intro rows r hr r2 hr2 hkey
    rcases mem_fetch_inflasi rows r hr with ⟨k, _, hk⟩
    rcases mem_fetch_inflasi rows r2 hr2 with ⟨k2, _, hk2⟩
    have e1 : fKey r = k := by rw [hk, fKey_meanFor]
    have e2 : fKey r2 = k2 := by rw [hk2, fKey_meanFor]
    have : k = k2 := by rw [← e1, ← e2, hkey]
    rw [hk, hk2, this]
  · intro rows r hr
    rcases mem_fetch_inflasi rows r hr with ⟨k, hkmem, hk⟩
    have ekey : fKey r = k := by rw [hk, fKey_meanFor]
    constructor
    · have hk' : k ∈ (rows.map canonFRow).map fKey := List.mem_dedup.mp hkmem
      rcases List.mem_map.mp hk' with ⟨x, hx, hfx⟩
      have : x ∈ (rows.map canonFRow).filter (fun y => fKey y = fKey r) :=
        List.mem_filter.mpr ⟨hx, by simp [hfx, ekey]⟩
      exact List.ne_nil_of_mem this
    · rw [ekey, hk]
      simp only [meanFor]

/-- Witness for C4 at two concrete fetched rows whose region spellings
differ in casing and whose rates average to 4. -/
theorem fetch_canonicalize_and_average_witness :
    (fetchedPair.map canonFRow).filter
        (fun x => fKey x = fKey ⟨"Aceh", 2025, 1, (4 : ℚ)⟩) ≠ [] ∧
    (⟨"Aceh", 2025, 1, (4 : ℚ)⟩ : FRow).inflasi =
      (((fetchedPair.map canonFRow).filter
          (fun x => fKey x = fKey ⟨"Aceh", 2025, 1, (4 : ℚ)⟩)).map FRow.inflasi).sum /
        ((((fetchedPair.map canonFRow).filter
          (fun x => fKey x = fKey ⟨"Aceh", 2025, 1, (4 : ℚ)⟩)).length : ℚ)) := by
  have heval : fetch_inflasi_df fetchedPair = [⟨"Aceh", 2025, 1, (4 : ℚ)⟩] := by
    simp +decide [fetch_inflasi_df, fetchedPair, canonFRow, canonProvinsi, applyMap,
      provinsi_mapping_pre, provinsi_mapping_post, titleCase, titleCaseAux, fKey, meanFor,
      List.insertionSort, List.orderedInsert, List.dedup]
    norm_num
  have hmem : (⟨"Aceh", 2025, 1, (4 : ℚ)⟩ : FRow) ∈ fetch_inflasi_df fetchedPair := by
    rw [heval]
    exact List.mem_singleton.mpr rfl
  exact fetch_canonicalize_and_average.2.2 fetchedPair _ hmem

end PDS
